import Mathlib

/-
Verification of the simple_predicates boolean expression library.

The library builds boolean expression trees over a user-supplied variable
type and converts them to conjunctive and disjunctive normal forms by a
work-stack rewrite loop (simplify, then repeatedly pushdown-negation and
distribute, splitting on the target operator).  The definitions below are
shallow embeddings of the functions in src/lib.rs, src/expr.rs, src/hash.rs
and src/vec.rs; the Rust trait Eval (Clone + PartialEq plus
eval(context) -> bool) is embedded by passing the variable equality veq and
the variable evaluation ev explicitly.  The theorems establish the spec
properties: evaluation preservation of normalization, termination of the
extraction loop, agreement of the two clause-storage policies, the vacuous
evaluation bases, the worked three-level CNF example, and the behavior of
simplify, the distribution tie-break, eq_repr and clause deduplication.
-/

namespace SimplePredicates

/-- The recursive boolean expression tree (enum Expr of V in src/lib.rs):
a variable leaf, a negation, a disjunction, or a conjunction. -/
inductive Expr (V : Type) : Type where
  | Var : V → Expr V
  | Not : Expr V → Expr V
  | Or : Expr V → Expr V → Expr V
  | And : Expr V → Expr V → Expr V
deriving DecidableEq, Repr

variable {V : Type} {D : Type}

/-- Embeds impl PartialEq for Expr of V (src/lib.rs): equality of variables at
leaves, recursive at Not, and commutative at Or and And (the two children may
match in either order).  veq is the variable type's PartialEq. -/
def exprEq (veq : V → V → Bool) : Expr V → Expr V → Bool
  | .Var a, .Var b => veq a b
  | .Not a, .Not b => exprEq veq a b
  | .Or a1 b1, .Or a2 b2 =>
      (exprEq veq a1 a2 && exprEq veq b1 b2) || (exprEq veq a1 b2 && exprEq veq b1 a2)
  | .And a1 b1, .And a2 b2 =>
      (exprEq veq a1 a2 && exprEq veq b1 b2) || (exprEq veq a1 b2 && exprEq veq b1 a2)
  | _, _ => false

/-- Embeds Expr::simplify (src/lib.rs): removes double negations and, after
simplifying both children of an And or Or, collapses the node to one child
when the simplified children are equal under the commutative equality. -/
def simplify (veq : V → V → Bool) : Expr V → Expr V
  | .Not (.Not q) => simplify veq q
  | .Not q => .Not (simplify veq q)
  | .And a b =>
      let a' := simplify veq a
      let b' := simplify veq b
      if exprEq veq a' b' then a' else .And a' b'
  | .Or a b =>
      let a' := simplify veq a
      let b' := simplify veq b
      if exprEq veq a' b' then a' else .Or a' b'
  | .Var v => .Var v

/-- Embeds Expr::pushdown_not (src/lib.rs): pushes one Not below an Or or And
by De Morgan, strips stacked double negations, and leaves anything else
unchanged. -/
def pushdown_not : Expr V → Expr V
  | .Not (.Var p) => .Not (.Var p)
  | .Not (.Not p) => pushdown_not p
  | .Not (.Or a b) => .And (.Not a) (.Not b)
  | .Not (.And a b) => .Or (.Not a) (.Not b)
  | e => e

/-- Embeds Expr::distribute_and (src/lib.rs).  The Rust or-pattern
(p, Or(q, r)) | (Or(q, r), p) tries its left alternative first, so the second
operand is tested for Or first; the match arm order is preserved here. -/
def distribute_and : Expr V → Expr V
  | .And a b =>
      match a, b with
      | p, .Or q r => .Or (.And p q) (.And p r)
      | .Or q r, p => .Or (.And p q) (.And p r)
      | a, b => .And a b
  | e => e

/-- Embeds Expr::distribute_or (src/lib.rs), dual to distribute_and: the
second operand is tested for And first. -/
def distribute_or : Expr V → Expr V
  | .Or a b =>
      match a, b with
      | p, .And q r => .And (.Or p q) (.Or p r)
      | .And q r, p => .And (.Or p q) (.Or p r)
      | a, b => .Or a b
  | e => e

/-- Embeds impl Eval for Expr of V (src/lib.rs): recursive boolean
evaluation against a context, with ev the variable type's eval. -/
def eval (ev : V → D → Bool) : Expr V → D → Bool
  | .Var p, d => ev p d
  | .Not p, d => !(eval ev p d)
  | .Or a b, d => eval ev a d || eval ev b d
  | .And a b, d => eval ev a d && eval ev b d

/-- Variable equality of the u32 literals used by the repository's tests. -/
def natBeq : Nat → Nat → Bool := fun a b => a == b

/-- Termination measure for CNF extraction (a proof device, not source
code): multiplicative at Or, so one distribution or De Morgan step on a
popped expression strictly shrinks the measure of the pushed children. -/
def muC : Expr V → Nat
  | .Var _ => 3
  | .Not p => muC p + 1
  | .And a b => muC a + muC b + 1
  | .Or a b => muC a * muC b

/-- Termination measure for DNF extraction, dual to muC. -/
def muD : Expr V → Nat
  | .Var _ => 3
  | .Not p => muD p + 1
  | .Or a b => muD a + muD b + 1
  | .And a b => muD a * muD b

theorem muC_ge (e : Expr V) : 3 ≤ muC e := by
  induction e with
  | Var v => simp [muC]
  | Not p ih => simp [muC]; omega
  | Or a b iha ihb => simp only [muC]; nlinarith
  | And a b iha ihb => simp [muC]; omega

theorem muD_ge (e : Expr V) : 3 ≤ muD e := by
  induction e with
  | Var v => simp [muD]
  | Not p ih => simp [muD]; omega
  | And a b iha ihb => simp only [muD]; nlinarith
  | Or a b iha ihb => simp [muD]; omega

theorem stepC_mu (e a b : Expr V)
    (h : distribute_or (pushdown_not e) = .And a b) :
    muC a + muC b < muC e := by
  induction e using pushdown_not.induct with
  | case1 p =>
      simp [pushdown_not, distribute_or] at h
  | case2 p ih =>
      rw [pushdown_not] at h
      have := ih h
      simp [muC]; omega
  | case3 x y =>
      rw [pushdown_not] at h
      simp [distribute_or] at h
      obtain ⟨h1, h2⟩ := h
      subst h1; subst h2
      have hx := muC_ge x
      have hy := muC_ge y
      simp [muC]; nlinarith
  | case4 x y =>
      rw [pushdown_not] at h
      simp [distribute_or] at h
  | case5 e h1 h2 h3 h4 =>
      have hp : pushdown_not e = e := by
        cases e with
        | Var v => rw [pushdown_not] <;> simp
        | Not p =>
            cases p with
            | Var v => exact absurd rfl (h1 v)
            | Not q => exact absurd rfl (h2 q)
            | Or x y => exact absurd rfl (h3 x y)
            | And x y => exact absurd rfl (h4 x y)
        | Or x y => rw [pushdown_not] <;> simp
        | And x y => rw [pushdown_not] <;> simp
      rw [hp] at h
      cases e with
      | Var v => simp [distribute_or] at h
      | Not p => simp [distribute_or] at h
      | And x y =>
          simp [distribute_or] at h
          obtain ⟨hx, hy⟩ := h
          subst hx; subst hy
          simp [muC]
      | Or x y =>
          cases y with
          | And ya yb =>
              simp [distribute_or] at h
              obtain ⟨ha, hb⟩ := h
              subst ha; subst hb
              simp only [muC]
              nlinarith [muC_ge x]
          | Var vy =>
              cases x with
              | And xa xb =>
                  simp [distribute_or] at h
                  obtain ⟨ha, hb⟩ := h
                  subst ha; subst hb
                  simp only [muC]
                  nlinarith [muC_ge (Expr.Var vy : Expr V)]
              | Var vx => simp [distribute_or] at h
              | Not px => simp [distribute_or] at h
              | Or xa xb => simp [distribute_or] at h
          | Not py =>
              cases x with
              | And xa xb =>
                  simp [distribute_or] at h
                  obtain ⟨ha, hb⟩ := h
                  subst ha; subst hb
                  simp only [muC]
                  nlinarith [muC_ge py]
              | Var vx => simp [distribute_or] at h
              | Not px => simp [distribute_or] at h
              | Or xa xb => simp [distribute_or] at h
          | Or ya yb =>
              cases x with
              | And xa xb =>
                  simp [distribute_or] at h
                  obtain ⟨ha, hb⟩ := h
                  subst ha; subst hb
                  simp only [muC]
                  nlinarith [muC_ge ya, muC_ge yb]
              | Var vx => simp [distribute_or] at h
              | Not px => simp [distribute_or] at h
              | Or xa xb => simp [distribute_or] at h

theorem stepD_mu (e a b : Expr V)
    (h : distribute_and (pushdown_not e) = .Or a b) :
    muD a + muD b < muD e := by
  induction e using pushdown_not.induct with
  | case1 p =>
      simp [pushdown_not, distribute_and] at h
  | case2 p ih =>
      rw [pushdown_not] at h
      have := ih h
      simp [muD]; omega
  | case3 x y =>
      rw [pushdown_not] at h
      simp [distribute_and] at h
  | case4 x y =>
      rw [pushdown_not] at h
      simp [distribute_and] at h
      obtain ⟨h1, h2⟩ := h
      subst h1; subst h2
      have hx := muD_ge x
      have hy := muD_ge y
      simp [muD]; nlinarith
  | case5 e h1 h2 h3 h4 =>
      have hp : pushdown_not e = e := by
        cases e with
        | Var v => rw [pushdown_not] <;> simp
        | Not p =>
            cases p with
            | Var v => exact absurd rfl (h1 v)
            | Not q => exact absurd rfl (h2 q)
            | Or x y => exact absurd rfl (h3 x y)
            | And x y => exact absurd rfl (h4 x y)
        | Or x y => rw [pushdown_not] <;> simp
        | And x y => rw [pushdown_not] <;> simp
      rw [hp] at h
      cases e with
      | Var v => simp [distribute_and] at h
      | Not p => simp [distribute_and] at h
      | Or x y =>
          simp [distribute_and] at h
          obtain ⟨hx, hy⟩ := h
          subst hx; subst hy
          simp [muD]
      | And x y =>
          cases y with
          | Or ya yb =>
              simp [distribute_and] at h
              obtain ⟨ha, hb⟩ := h
              subst ha; subst hb
              simp only [muD]
              nlinarith [muD_ge x]
          | Var vy =>
              cases x with
              | Or xa xb =>
                  simp [distribute_and] at h
                  obtain ⟨ha, hb⟩ := h
                  subst ha; subst hb
                  simp only [muD]
                  nlinarith [muD_ge (Expr.Var vy : Expr V)]
              | Var vx => simp [distribute_and] at h
              | Not px => simp [distribute_and] at h
              | And xa xb => simp [distribute_and] at h
          | Not py =>
              cases x with
              | Or xa xb =>
                  simp [distribute_and] at h
                  obtain ⟨ha, hb⟩ := h
                  subst ha; subst hb
                  simp only [muD]
                  nlinarith [muD_ge py]
              | Var vx => simp [distribute_and] at h
              | Not px => simp [distribute_and] at h
              | And xa xb => simp [distribute_and] at h
          | And ya yb =>
              cases x with
              | Or xa xb =>
                  simp [distribute_and] at h
                  obtain ⟨ha, hb⟩ := h
                  subst ha; subst hb
                  simp only [muD]
                  nlinarith [muD_ge ya, muD_ge yb]
              | Var vx => simp [distribute_and] at h
              | Not px => simp [distribute_and] at h
              | And xa xb => simp [distribute_and] at h

/-- Sum of the CNF measure over a work stack. -/
def muQC (q : List (Expr V)) : Nat := (q.map muC).sum

/-- Sum of the DNF measure over a work stack. -/
def muQD (q : List (Expr V)) : Nat := (q.map muD).sum

/-- The while-let work-stack loop of From(Expr) for Cnf, CnfHashSet and
CnfVec (src/lib.rs, src/hash.rs, src/vec.rs): pop, apply pushdown_not then
distribute_or, push both children when the result is an And, otherwise
insert the finished clause.  The list head is the stack top (Rust pushes a
then b and pops b first), and ins is the target container's insertion,
instantiated below with insertClause (HashSet) or pushClause (Vec). -/
def cnfLoop (ins : Expr V → List (Expr V) → List (Expr V)) :
    List (Expr V) → List (Expr V) → List (Expr V)
  | [], clauses => clauses
  | e :: rest, clauses =>
    match h : distribute_or (pushdown_not e) with
    | .And a b => cnfLoop ins (b :: a :: rest) clauses
    | .Var v => cnfLoop ins rest (ins (.Var v) clauses)
    | .Not p => cnfLoop ins rest (ins (.Not p) clauses)
    | .Or a b => cnfLoop ins rest (ins (.Or a b) clauses)
termination_by q _ => muQC q
decreasing_by
  · have := stepC_mu e a b h
    simp [muQC]; omega
  · have := muC_ge e
    simp [muQC]; omega
  · have := muC_ge e
    simp [muQC]; omega
  · have := muC_ge e
    simp [muQC]; omega

/-- The dual work-stack loop of From(Expr) for Dnf, DnfHashSet and DnfVec:
applies distribute_and and splits on Or. -/
def dnfLoop (ins : Expr V → List (Expr V) → List (Expr V)) :
    List (Expr V) → List (Expr V) → List (Expr V)
  | [], clauses => clauses
  | e :: rest, clauses =>
    match h : distribute_and (pushdown_not e) with
    | .Or a b => dnfLoop ins (b :: a :: rest) clauses
    | .Var v => dnfLoop ins rest (ins (.Var v) clauses)
    | .Not p => dnfLoop ins rest (ins (.Not p) clauses)
    | .And a b => dnfLoop ins rest (ins (.And a b) clauses)
termination_by q _ => muQD q
decreasing_by
  · have := stepD_mu e a b h
    simp [muQD]; omega
  · have := muD_ge e
    simp [muQD]; omega
  · have := muD_ge e
    simp [muQD]; omega
  · have := muD_ge e
    simp [muQD]; omega

/-- The same CNF work-stack loop written with an explicit iteration bound:
none means the bound was exhausted before the stack emptied.  Termination of
the source loop is the statement that some bound returns its result. -/
def cnfLoopFuel (ins : Expr V → List (Expr V) → List (Expr V)) :
    Nat → List (Expr V) → List (Expr V) → Option (List (Expr V))
  | _, [], clauses => some clauses
  | 0, _ :: _, _ => none
  | n + 1, e :: rest, clauses =>
    match distribute_or (pushdown_not e) with
    | .And a b => cnfLoopFuel ins n (b :: a :: rest) clauses
    | g => cnfLoopFuel ins n rest (ins g clauses)

/-- The DNF work-stack loop with an explicit iteration bound. -/
def dnfLoopFuel (ins : Expr V → List (Expr V) → List (Expr V)) :
    Nat → List (Expr V) → List (Expr V) → Option (List (Expr V))
  | _, [], clauses => some clauses
  | 0, _ :: _, _ => none
  | n + 1, e :: rest, clauses =>
    match distribute_and (pushdown_not e) with
    | .Or a b => dnfLoopFuel ins n (b :: a :: rest) clauses
    | g => dnfLoopFuel ins n rest (ins g clauses)

/-- Insertion into the HashSet-backed clause containers (clauses.insert in
src/lib.rs and src/hash.rs), with the set modelled as a duplicate-free list.
Because Expr derives Hash structurally, only structurally identical clauses
feed the hasher the same data and can share a bucket, so the set
deduplicates exactly on structural identity; the commutative PartialEq is
only ever consulted within a bucket. -/
def insertClause [DecidableEq V] (g : Expr V) (clauses : List (Expr V)) :
    List (Expr V) :=
  if g ∈ clauses then clauses else clauses ++ [g]

/-- Insertion into the Vec-backed clause containers (clauses.push in
src/vec.rs): append, keeping duplicates and order. -/
def pushClause (g : Expr V) (clauses : List (Expr V)) : List (Expr V) :=
  clauses ++ [g]

/-- The clause collection built by Cnf::from(expr) and
CnfHashSet::from(expr): simplify once, then run the work-stack loop into the
deduplicating container. -/
def cnfFromClauses [DecidableEq V] (veq : V → V → Bool) (e : Expr V) :
    List (Expr V) :=
  cnfLoop insertClause [simplify veq e] []

/-- The clause collection built by Dnf::from(expr) and
DnfHashSet::from(expr). -/
def dnfFromClauses [DecidableEq V] (veq : V → V → Bool) (e : Expr V) :
    List (Expr V) :=
  dnfLoop insertClause [simplify veq e] []

/-- The clause sequence built by CnfVec::from(expr) (src/vec.rs). -/
def cnfVecFromClauses (veq : V → V → Bool) (e : Expr V) : List (Expr V) :=
  cnfLoop pushClause [simplify veq e] []

/-- The clause sequence built by DnfVec::from(expr) (src/vec.rs). -/
def dnfVecFromClauses (veq : V → V → Bool) (e : Expr V) : List (Expr V) :=
  dnfLoop pushClause [simplify veq e] []

/-- Embeds impl Eval for the CNF containers: every clause must evaluate
true (iter().all). -/
def evalCnf (ev : V → D → Bool) (clauses : List (Expr V)) (d : D) : Bool :=
  clauses.all (fun c => eval ev c d)

/-- Embeds impl Eval for the DNF containers: some clause must evaluate
true (iter().any). -/
def evalDnf (ev : V → D → Bool) (clauses : List (Expr V)) (d : D) : Bool :=
  clauses.any (fun c => eval ev c d)

theorem exprEq_sound (veq : V → V → Bool) (ev : V → D → Bool) (d : D)
    (hv : ∀ v w, veq v w = true → ev v d = ev w d) :
    ∀ x y : Expr V, exprEq veq x y = true → eval ev x d = eval ev y d := by
  intro x
  induction x with
  | Var a =>
      intro y h
      cases y <;> simp [exprEq] at h
      case Var b => simp [eval, hv a b h]
  | Not p ih =>
      intro y h
      cases y <;> simp [exprEq] at h
      case Not q => simp [eval, ih q h]
  | Or a b iha ihb =>
      intro y h
      cases y <;> simp [exprEq] at h
      case Or a2 b2 =>
        rcases h with ⟨h1, h2⟩ | ⟨h1, h2⟩
        · simp [eval, iha a2 h1, ihb b2 h2]
        · simp [eval, iha b2 h1, ihb a2 h2, Bool.or_comm]
  | And a b iha ihb =>
      intro y h
      cases y <;> simp [exprEq] at h
      case And a2 b2 =>
        rcases h with ⟨h1, h2⟩ | ⟨h1, h2⟩
        · simp [eval, iha a2 h1, ihb b2 h2]
        · simp [eval, iha b2 h1, ihb a2 h2, Bool.and_comm]

theorem eval_simplify (veq : V → V → Bool) (ev : V → D → Bool) (d : D)
    (hv : ∀ v w, veq v w = true → ev v d = ev w d) (e : Expr V) :
    eval ev (simplify veq e) d = eval ev e d := by
  induction e using simplify.induct veq with
  | case1 q ih =>
      rw [simplify]
      simp [eval, ih]
  | case2 q hne ih =>
      rw [simplify]
      · simp [eval, ih]
      · exact hne
  | case3 a b a' b' h iha ihb =>
      rw [simplify, if_pos h]
      have hs := exprEq_sound veq ev d hv _ _ h
      have hab : eval ev a d = eval ev b d := by rw [← iha, ← ihb]; exact hs
      rw [iha]
      simp [eval, ← hab]
  | case4 a b a' b' h iha ihb =>
      rw [simplify, if_neg h]
      simp [eval, iha, ihb]
  | case5 a b a' b' h iha ihb =>
      rw [simplify, if_pos h]
      have hs := exprEq_sound veq ev d hv _ _ h
      have hab : eval ev a d = eval ev b d := by rw [← iha, ← ihb]; exact hs
      rw [iha]
      simp [eval, ← hab]
  | case6 a b a' b' h iha ihb =>
      rw [simplify, if_neg h]
      simp [eval, iha, ihb]
  | case7 v => rfl

theorem eval_pushdown (ev : V → D → Bool) (d : D) (e : Expr V) :
    eval ev (pushdown_not e) d = eval ev e d := by
  induction e using pushdown_not.induct with
  | case1 p => rfl
  | case2 p ih =>
      rw [pushdown_not]
      simp [eval, ih]
  | case3 x y =>
      rw [pushdown_not]
      simp [eval]
  | case4 x y =>
      rw [pushdown_not]
      simp [eval]
  | case5 e h1 h2 h3 h4 =>
      cases e with
      | Var v => rfl
      | Not p =>
          cases p with
          | Var v => exact absurd rfl (h1 v)
          | Not q => exact absurd rfl (h2 q)
          | Or x y => exact absurd rfl (h3 x y)
          | And x y => exact absurd rfl (h4 x y)
      | Or x y => rw [pushdown_not] <;> simp
      | And x y => rw [pushdown_not] <;> simp

theorem bool_or_and (p a b : Bool) : ((p || a) && (p || b)) = (p || (a && b)) := by
  cases p <;> cases a <;> cases b <;> rfl

theorem bool_and_or (p a b : Bool) : ((p && a) || (p && b)) = (p && (a || b)) := by
  cases p <;> cases a <;> cases b <;> rfl

theorem eval_distribute_or (ev : V → D → Bool) (d : D) (e : Expr V) :
    eval ev (distribute_or e) d = eval ev e d := by
  cases e with
  | Var v => rfl
  | Not p => rfl
  | And x y => rfl
  | Or x y =>
      cases y with
      | And ya yb =>
          simp [distribute_or, eval, bool_or_and]
      | Var vy =>
          cases x with
          | And xa xb =>
              simp [distribute_or, eval, Bool.or_comm, bool_or_and]
          | Var vx => rfl
          | Not px => rfl
          | Or xa xb => rfl
      | Not py =>
          cases x with
          | And xa xb =>
              simp [distribute_or, eval, Bool.or_comm, bool_or_and]
          | Var vx => rfl
          | Not px => rfl
          | Or xa xb => rfl
      | Or ya yb =>
          cases x with
          | And xa xb =>
              simp [distribute_or, eval, Bool.or_comm, bool_or_and]
          | Var vx => rfl
          | Not px => rfl
          | Or xa xb => rfl

theorem eval_distribute_and (ev : V → D → Bool) (d : D) (e : Expr V) :
    eval ev (distribute_and e) d = eval ev e d := by
  cases e with
  | Var v => rfl
  | Not p => rfl
  | Or x y => rfl
  | And x y =>
      cases y with
      | Or ya yb =>
          simp [distribute_and, eval, bool_and_or]
      | Var vy =>
          cases x with
          | Or xa xb =>
              simp [distribute_and, eval, Bool.and_comm, bool_and_or]
          | Var vx => rfl
          | Not px => rfl
          | And xa xb => rfl
      | Not py =>
          cases x with
          | Or xa xb =>
              simp [distribute_and, eval, Bool.and_comm, bool_and_or]
          | Var vx => rfl
          | Not px => rfl
          | And xa xb => rfl
      | And ya yb =>
          cases x with
          | Or xa xb =>
              simp [distribute_and, eval, Bool.and_comm, bool_and_or]
          | Var vx => rfl
          | Not px => rfl
          | And xa xb => rfl

theorem muQC_cons (e : Expr V) (q : List (Expr V)) :
    muQC (e :: q) = muC e + muQC q := by
  simp [muQC]

theorem muQD_cons (e : Expr V) (q : List (Expr V)) :
    muQD (e :: q) = muD e + muQD q := by
  simp [muQD]

theorem cnfLoopFuel_complete (ins : Expr V → List (Expr V) → List (Expr V)) :
    ∀ (n : Nat) (q clauses : List (Expr V)), muQC q < n →
      cnfLoopFuel ins n q clauses = some (cnfLoop ins q clauses) := by
  intro n
  induction n with
  | zero => intro q c h; exact absurd h (Nat.not_lt_zero _)
  | succ n ih =>
      intro q c h
      cases q with
      | nil => rw [cnfLoopFuel, cnfLoop]
      | cons e rest =>
          rw [cnfLoopFuel, cnfLoop]
          cases hg : distribute_or (pushdown_not e) with
          | And a b =>
              have hs := stepC_mu e a b hg
              rw [muQC_cons] at h
              exact ih _ _ (by rw [muQC_cons, muQC_cons]; omega)
          | Var v =>
              have he := muC_ge e
              rw [muQC_cons] at h
              exact ih _ _ (by omega)
          | Not p =>
              have he := muC_ge e
              rw [muQC_cons] at h
              exact ih _ _ (by omega)
          | Or a b =>
              have he := muC_ge e
              rw [muQC_cons] at h
              exact ih _ _ (by omega)

theorem dnfLoopFuel_complete (ins : Expr V → List (Expr V) → List (Expr V)) :
    ∀ (n : Nat) (q clauses : List (Expr V)), muQD q < n →
      dnfLoopFuel ins n q clauses = some (dnfLoop ins q clauses) := by
  intro n
  induction n with
  | zero => intro q c h; exact absurd h (Nat.not_lt_zero _)
  | succ n ih =>
      intro q c h
      cases q with
      | nil => rw [dnfLoopFuel, dnfLoop]
      | cons e rest =>
          rw [dnfLoopFuel, dnfLoop]
          cases hg : distribute_and (pushdown_not e) with
          | Or a b =>
              have hs := stepD_mu e a b hg
              rw [muQD_cons] at h
              exact ih _ _ (by rw [muQD_cons, muQD_cons]; omega)
          | Var v =>
              have he := muD_ge e
              rw [muQD_cons] at h
              exact ih _ _ (by omega)
          | Not p =>
              have he := muD_ge e
              rw [muQD_cons] at h
              exact ih _ _ (by omega)
          | And a b =>
              have he := muD_ge e
              rw [muQD_cons] at h
              exact ih _ _ (by omega)

theorem eval_step_or (ev : V → D → Bool) (d : D) (e : Expr V) :
    eval ev (distribute_or (pushdown_not e)) d = eval ev e d := by
  rw [eval_distribute_or, eval_pushdown]

theorem eval_step_and (ev : V → D → Bool) (d : D) (e : Expr V) :
    eval ev (distribute_and (pushdown_not e)) d = eval ev e d := by
  rw [eval_distribute_and, eval_pushdown]

theorem cnfLoopFuel_all_eval (ev : V → D → Bool) (d : D)
    (ins : Expr V → List (Expr V) → List (Expr V))
    (hins : ∀ g cls, (ins g cls).all (fun c => eval ev c d) =
      (eval ev g d && cls.all (fun c => eval ev c d))) :
    ∀ (n : Nat) (q clauses r : List (Expr V)),
      cnfLoopFuel ins n q clauses = some r →
      r.all (fun c => eval ev c d) =
        (q.all (fun c => eval ev c d) && clauses.all (fun c => eval ev c d)) := by
  intro n
  induction n with
  | zero =>
      intro q c r h
      cases q with
      | nil => rw [cnfLoopFuel] at h; injection h with h; subst h; simp
      | cons e rest => rw [cnfLoopFuel] at h; exact absurd h (by simp)
  | succ n ih =>
      intro q c r h
      cases q with
      | nil => rw [cnfLoopFuel] at h; injection h with h; subst h; simp
      | cons e rest =>
          rw [cnfLoopFuel] at h
          have he : eval ev (distribute_or (pushdown_not e)) d = eval ev e d :=
            eval_step_or ev d e
          cases hg : distribute_or (pushdown_not e) with
          | And a b =>
              rw [hg] at h
              have := ih _ _ _ h
              rw [hg] at he
              simp only [eval] at he
              simp only [List.all_cons] at this ⊢
              rw [this, ← he]
              cases eval ev a d <;> cases eval ev b d <;> simp
          | Var v =>
              rw [hg] at h
              have := ih _ _ _ h
              rw [hg] at he
              simp only [List.all_cons] at this ⊢
              rw [this, hins, he]
              cases eval ev e d <;> simp
          | Not p =>
              rw [hg] at h
              have := ih _ _ _ h
              rw [hg] at he
              simp only [List.all_cons] at this ⊢
              rw [this, hins, he]
              cases eval ev e d <;> simp
          | Or a b =>
              rw [hg] at h
              have := ih _ _ _ h
              rw [hg] at he
              simp only [List.all_cons] at this ⊢
              rw [this, hins, he]
              cases eval ev e d <;> simp

theorem dnfLoopFuel_any_eval (ev : V → D → Bool) (d : D)
    (ins : Expr V → List (Expr V) → List (Expr V))
    (hins : ∀ g cls, (ins g cls).any (fun c => eval ev c d) =
      (eval ev g d || cls.any (fun c => eval ev c d))) :
    ∀ (n : Nat) (q clauses r : List (Expr V)),
      dnfLoopFuel ins n q clauses = some r →
      r.any (fun c => eval ev c d) =
        (q.any (fun c => eval ev c d) || clauses.any (fun c => eval ev c d)) := by
  intro n
  induction n with
  | zero =>
      intro q c r h
      cases q with
      | nil => rw [dnfLoopFuel] at h; injection h with h; subst h; simp
      | cons e rest => rw [dnfLoopFuel] at h; exact absurd h (by simp)
  | succ n ih =>
      intro q c r h
      cases q with
      | nil => rw [dnfLoopFuel] at h; injection h with h; subst h; simp
      | cons e rest =>
          rw [dnfLoopFuel] at h
          have he : eval ev (distribute_and (pushdown_not e)) d = eval ev e d :=
            eval_step_and ev d e
          cases hg : distribute_and (pushdown_not e) with
          | Or a b =>
              rw [hg] at h
              have := ih _ _ _ h
              rw [hg] at he
              simp only [eval] at he
              simp only [List.any_cons] at this ⊢
              rw [this, ← he]
              cases eval ev a d <;> cases eval ev b d <;> simp
          | Var v =>
              rw [hg] at h
              have := ih _ _ _ h
              rw [hg] at he
              simp only [List.any_cons] at this ⊢
              rw [this, hins, he]
              cases eval ev e d <;> simp
          | Not p =>
              rw [hg] at h
              have := ih _ _ _ h
              rw [hg] at he
              simp only [List.any_cons] at this ⊢
              rw [this, hins, he]
              cases eval ev e d <;> simp
          | And a b =>
              rw [hg] at h
              have := ih _ _ _ h
              rw [hg] at he
              simp only [List.any_cons] at this ⊢
              rw [this, hins, he]
              cases eval ev e d <;> simp

theorem cnfLoopFuel_mem (ins ins' : Expr V → List (Expr V) → List (Expr V))
    (hins : ∀ g cls x, x ∈ ins g cls ↔ x = g ∨ x ∈ cls)
    (hins' : ∀ g cls x, x ∈ ins' g cls ↔ x = g ∨ x ∈ cls) :
    ∀ (n : Nat) (q c c' r r' : List (Expr V)),
      cnfLoopFuel ins n q c = some r →
      cnfLoopFuel ins' n q c' = some r' →
      (∀ x, x ∈ c ↔ x ∈ c') →
      ∀ x, x ∈ r ↔ x ∈ r' := by
  intro n
  induction n with
  | zero =>
      intro q c c' r r' h h' hcc x
      cases q with
      | nil =>
          rw [cnfLoopFuel] at h h'
          injection h with h; injection h' with h'
          subst h; subst h'; exact hcc x
      | cons e rest => rw [cnfLoopFuel] at h; exact absurd h (by simp)
  | succ n ih =>
      intro q c c' r r' h h' hcc x
      cases q with
      | nil =>
          rw [cnfLoopFuel] at h h'
          injection h with h; injection h' with h'
          subst h; subst h'; exact hcc x
      | cons e rest =>
          rw [cnfLoopFuel] at h h'
          cases hg : distribute_or (pushdown_not e) with
          | And a b =>
              rw [hg] at h h'
              exact ih _ _ _ _ _ h h' hcc x
          | Var v =>
              rw [hg] at h h'
              refine ih _ _ _ _ _ h h' (fun y => ?_) x
              rw [hins, hins']
              exact or_congr Iff.rfl (hcc y)
          | Not p =>
              rw [hg] at h h'
              refine ih _ _ _ _ _ h h' (fun y => ?_) x
              rw [hins, hins']
              exact or_congr Iff.rfl (hcc y)
          | Or a b =>
              rw [hg] at h h'
              refine ih _ _ _ _ _ h h' (fun y => ?_) x
              rw [hins, hins']
              exact or_congr Iff.rfl (hcc y)

theorem dnfLoopFuel_mem (ins ins' : Expr V → List (Expr V) → List (Expr V))
    (hins : ∀ g cls x, x ∈ ins g cls ↔ x = g ∨ x ∈ cls)
    (hins' : ∀ g cls x, x ∈ ins' g cls ↔ x = g ∨ x ∈ cls) :
    ∀ (n : Nat) (q c c' r r' : List (Expr V)),
      dnfLoopFuel ins n q c = some r →
      dnfLoopFuel ins' n q c' = some r' →
      (∀ x, x ∈ c ↔ x ∈ c') →
      ∀ x, x ∈ r ↔ x ∈ r' := by
  intro n
  induction n with
  | zero =>
      intro q c c' r r' h h' hcc x
      cases q with
      | nil =>
          rw [dnfLoopFuel] at h h'
          injection h with h; injection h' with h'
          subst h; subst h'; exact hcc x
      | cons e rest => rw [dnfLoopFuel] at h; exact absurd h (by simp)
  | succ n ih =>
      intro q c c' r r' h h' hcc x
      cases q with
      | nil =>
          rw [dnfLoopFuel] at h h'
          injection h with h; injection h' with h'
          subst h; subst h'; exact hcc x
      | cons e rest =>
          rw [dnfLoopFuel] at h h'
          cases hg : distribute_and (pushdown_not e) with
          | Or a b =>
              rw [hg] at h h'
              exact ih _ _ _ _ _ h h' hcc x
          | Var v =>
              rw [hg] at h h'
              refine ih _ _ _ _ _ h h' (fun y => ?_) x
              rw [hins, hins']
              exact or_congr Iff.rfl (hcc y)
          | Not p =>
              rw [hg] at h h'
              refine ih _ _ _ _ _ h h' (fun y => ?_) x
              rw [hins, hins']
              exact or_congr Iff.rfl (hcc y)
          | And a b =>
              rw [hg] at h h'
              refine ih _ _ _ _ _ h h' (fun y => ?_) x
              rw [hins, hins']
              exact or_congr Iff.rfl (hcc y)

theorem cnfLoopFuel_ne_nil (ins : Expr V → List (Expr V) → List (Expr V))
    (hins : ∀ g cls, ins g cls ≠ []) :
    ∀ (n : Nat) (q c r : List (Expr V)),
      cnfLoopFuel ins n q c = some r → (c ≠ [] ∨ q ≠ []) → r ≠ [] := by
  intro n
  induction n with
  | zero =>
      intro q c r h hne
      cases q with
      | nil =>
          rw [cnfLoopFuel] at h
          injection h with h; subst h
          rcases hne with hc | hq
          · exact hc
          · exact absurd rfl hq
      | cons e rest => rw [cnfLoopFuel] at h; exact absurd h (by simp)
  | succ n ih =>
      intro q c r h hne
      cases q with
      | nil =>
          rw [cnfLoopFuel] at h
          injection h with h; subst h
          rcases hne with hc | hq
          · exact hc
          · exact absurd rfl hq
      | cons e rest =>
          rw [cnfLoopFuel] at h
          cases hg : distribute_or (pushdown_not e) with
          | And a b =>
              rw [hg] at h
              exact ih _ _ _ h (Or.inr (by simp))
          | Var v =>
              rw [hg] at h
              exact ih _ _ _ h (Or.inl (hins _ _))
          | Not p =>
              rw [hg] at h
              exact ih _ _ _ h (Or.inl (hins _ _))
          | Or a b =>
              rw [hg] at h
              exact ih _ _ _ h (Or.inl (hins _ _))

theorem dnfLoopFuel_ne_nil (ins : Expr V → List (Expr V) → List (Expr V))
    (hins : ∀ g cls, ins g cls ≠ []) :
    ∀ (n : Nat) (q c r : List (Expr V)),
      dnfLoopFuel ins n q c = some r → (c ≠ [] ∨ q ≠ []) → r ≠ [] := by
  intro n
  induction n with
  | zero =>
      intro q c r h hne
      cases q with
      | nil =>
          rw [dnfLoopFuel] at h
          injection h with h; subst h
          rcases hne with hc | hq
          · exact hc
          · exact absurd rfl hq
      | cons e rest => rw [dnfLoopFuel] at h; exact absurd h (by simp)
  | succ n ih =>
      intro q c r h hne
      cases q with
      | nil =>
          rw [dnfLoopFuel] at h
          injection h with h; subst h
          rcases hne with hc | hq
          · exact hc
          · exact absurd rfl hq
      | cons e rest =>
          rw [dnfLoopFuel] at h
          cases hg : distribute_and (pushdown_not e) with
          | Or a b =>
              rw [hg] at h
              exact ih _ _ _ h (Or.inr (by simp))
          | Var v =>
              rw [hg] at h
              exact ih _ _ _ h (Or.inl (hins _ _))
          | Not p =>
              rw [hg] at h
              exact ih _ _ _ h (Or.inl (hins _ _))
          | And a b =>
              rw [hg] at h
              exact ih _ _ _ h (Or.inl (hins _ _))

theorem insertClause_all [DecidableEq V] (p : Expr V → Bool) (g : Expr V)
    (cls : List (Expr V)) :
    (insertClause g cls).all p = (p g && cls.all p) := by
  rw [insertClause]
  split
  · rename_i hmem
    cases hall : cls.all p
    · simp
    · have := (List.all_eq_true.mp hall) g hmem
      simp [this]
  · simp [List.all_append, Bool.and_comm]

theorem pushClause_all (p : Expr V → Bool) (g : Expr V) (cls : List (Expr V)) :
    (pushClause g cls).all p = (p g && cls.all p) := by
  simp [pushClause, List.all_append, Bool.and_comm]

theorem insertClause_any [DecidableEq V] (p : Expr V → Bool) (g : Expr V)
    (cls : List (Expr V)) :
    (insertClause g cls).any p = (p g || cls.any p) := by
  rw [insertClause]
  split
  · rename_i hmem
    cases hany : cls.any p
    · have := List.any_eq_false.mp hany
      simp [this g hmem]
    · simp
  · simp [List.any_append, Bool.or_comm]

theorem pushClause_any (p : Expr V → Bool) (g : Expr V) (cls : List (Expr V)) :
    (pushClause g cls).any p = (p g || cls.any p) := by
  simp [pushClause, List.any_append, Bool.or_comm]

theorem insertClause_mem [DecidableEq V] (g : Expr V) (cls : List (Expr V))
    (x : Expr V) : x ∈ insertClause g cls ↔ x = g ∨ x ∈ cls := by
  rw [insertClause]
  split
  · rename_i hmem
    constructor
    · exact fun hx => Or.inr hx
    · rintro (rfl | hx)
      · exact hmem
      · exact hx
  · simp [or_comm]

theorem pushClause_mem (g : Expr V) (cls : List (Expr V)) (x : Expr V) :
    x ∈ pushClause g cls ↔ x = g ∨ x ∈ cls := by
  simp [pushClause, or_comm]

theorem insertClause_ne_nil [DecidableEq V] (g : Expr V) (cls : List (Expr V)) :
    insertClause g cls ≠ [] := by
  rw [insertClause]
  split
  · rename_i hmem
    exact List.ne_nil_of_mem hmem
  · simp

theorem pushClause_ne_nil (g : Expr V) (cls : List (Expr V)) :
    pushClause g cls ≠ [] := by
  simp [pushClause]

/-- Embeds Expr::eq_repr exactly as written in src/lib.rs.  Note the Or and
And arms compare a1 with b1 and a2 with b2: each expression's own two
children, not the corresponding children across the two expressions. -/
def eq_repr (veq : V → V → Bool) : Expr V → Expr V → Bool
  | .Var a, .Var b => veq a b
  | .Not a, .Not b => eq_repr veq a b
  | .Or a1 b1, .Or a2 b2 => eq_repr veq a1 b1 && eq_repr veq a2 b2
  | .And a1 b1, .And a2 b2 => eq_repr veq a1 b1 && eq_repr veq a2 b2
  | _, _ => false
termination_by x y => sizeOf x + sizeOf y
decreasing_by all_goals (simp_wf; omega)

/-- The data stream the derived Hash impl of Expr (derive(Hash) in
src/lib.rs) feeds the hasher: the variant discriminant followed by the
fields, recursively; vhash stands for the variable type's hash data.  Two
expressions give the hasher equal input exactly when they are structurally
identical. -/
def hashStream (vhash : V → Nat) : Expr V → List Nat
  | .Var v => [0, vhash v]
  | .Not p => 1 :: hashStream vhash p
  | .Or a b => 2 :: (hashStream vhash a ++ hashStream vhash b)
  | .And a b => 3 :: (hashStream vhash a ++ hashStream vhash b)

/-- The test literal type of src/tests.rs (impl Eval for u32): a number
evaluates to whether the context vector contains it. -/
def evalContains : Nat → List Nat → Bool := fun v d => d.contains v

/-- The context vector used by the repository's evaluation tests. -/
def ctx0 : List Nat := [1, 2, 4, 5, 7, 9, 10]

/-- The three-level input expression of the worked CNF and DNF examples:
And(Or(And(1,2),And(3,4)), And(Or(5,6),Or(7,8))). -/
def exprThreeLevel : Expr Nat :=
  .And (.Or (.And (.Var 1) (.Var 2)) (.And (.Var 3) (.Var 4)))
       (.And (.Or (.Var 5) (.Var 6)) (.Or (.Var 7) (.Var 8)))

/-- The six clauses the spec expects from CNF extraction of
exprThreeLevel. -/
def cnfExpectedClauses : List (Expr Nat) :=
  [.Or (.Var 7) (.Var 8), .Or (.Var 5) (.Var 6), .Or (.Var 4) (.Var 2),
   .Or (.Var 4) (.Var 1), .Or (.Var 3) (.Var 2), .Or (.Var 3) (.Var 1)]

/-- The test literal type satisfies the Eval contract: equal variables
evaluate equally. -/
theorem natRespects (d : List Nat) :
    ∀ v w, natBeq v w = true → evalContains v d = evalContains w d := by
  intro v w h
  have hvw : v = w := eq_of_beq h
  rw [hvw]

/-- C1: for every expression e over any variable type satisfying the Eval
contract (variables equal under the type's equality evaluate equally) and
every context d, evaluating e directly, evaluating Cnf::from(e), and
evaluating Dnf::from(e) against d all yield the same boolean result:
normalization preserves logical semantics under evaluation. -/
theorem normalization_preserves_eval [DecidableEq V] (veq : V → V → Bool)
    (ev : V → D → Bool) (d : D) (e : Expr V)
    (hv : ∀ v w, veq v w = true → ev v d = ev w d) :
    evalCnf ev (cnfFromClauses veq e) d = eval ev e d ∧
    evalDnf ev (dnfFromClauses veq e) d = eval ev e d := by
  constructor
  · have hb := cnfLoopFuel_complete (V := V) insertClause
      (muQC [simplify veq e] + 1) [simplify veq e] [] (Nat.lt_succ_self _)
    have ha := cnfLoopFuel_all_eval ev d insertClause
      (fun g cls => insertClause_all _ g cls) _ _ _ _ hb
    calc evalCnf ev (cnfFromClauses veq e) d
        = (cnfLoop insertClause [simplify veq e] []).all (fun c => eval ev c d) := rfl
      _ = ([simplify veq e].all (fun c => eval ev c d) &&
            ([] : List (Expr V)).all (fun c => eval ev c d)) := ha
      _ = eval ev (simplify veq e) d := by simp
      _ = eval ev e d := eval_simplify veq ev d hv e
  · have hb := dnfLoopFuel_complete (V := V) insertClause
      (muQD [simplify veq e] + 1) [simplify veq e] [] (Nat.lt_succ_self _)
    have ha := dnfLoopFuel_any_eval ev d insertClause
      (fun g cls => insertClause_any _ g cls) _ _ _ _ hb
    calc evalDnf ev (dnfFromClauses veq e) d
        = (dnfLoop insertClause [simplify veq e] []).any (fun c => eval ev c d) := rfl
      _ = ([simplify veq e].any (fun c => eval ev c d) ||
            ([] : List (Expr V)).any (fun c => eval ev c d)) := ha
      _ = eval ev (simplify veq e) d := by simp
      _ = eval ev e d := eval_simplify veq ev d hv e

/-- C1 witness: the preservation theorem applied to the three-level test
expression and the test context, with the Eval contract discharged for the
u32 test literal type. -/
theorem normalization_preserves_eval_witness :
    evalCnf evalContains (cnfFromClauses natBeq exprThreeLevel) ctx0 =
      eval evalContains exprThreeLevel ctx0 ∧
    evalDnf evalContains (dnfFromClauses natBeq exprThreeLevel) ctx0 =
      eval evalContains exprThreeLevel ctx0 :=
  normalization_preserves_eval natBeq evalContains ctx0 exprThreeLevel
    (natRespects ctx0)

/-- C2: the clause Or(Var 1, Var 2) and the clause Or(Var 2, Var 1) compare
equal under the commutative PartialEq, yet they are distinct values whose
derived structural Hash impls feed the hasher different data.  This violates
the Hash-Eq consistency the standard HashSet requires of its keys: the two
clauses hash into different buckets, are never compared, and are both
retained, so a container built to hold both keeps two entries that compare
equal instead of collapsing them to one. -/
theorem cnf_dedup_violates_hash_contract :
    exprEq natBeq (.Or (.Var 1) (.Var 2)) (.Or (.Var 2) (.Var 1)) = true ∧
    (Expr.Or (.Var 1) (.Var 2) : Expr Nat) ≠ .Or (.Var 2) (.Var 1) ∧
    hashStream (fun v => v) (.Or (.Var 1) (.Var 2)) ≠
      hashStream (fun v => v) (.Or (.Var 2) (.Var 1)) := by
  refine ⟨by decide, by decide, by decide⟩

/-- C3 counterexample: for e = Not(And(Not(Var 1), Not(Var 1))) the
expressions simplify(simplify(e)) and simplify(e) are not equal under the
structural commutative equality: the first pass collapses the And of equal
children into Not(Not(Var 1)), a fresh double negation that only the second
pass removes, giving Var 1. -/
theorem simplify_idempotence_cex :
    exprEq natBeq
      (simplify natBeq (simplify natBeq
        (.Not (.And (.Not (.Var 1)) (.Not (.Var 1))))))
      (simplify natBeq (.Not (.And (.Not (.Var 1)) (.Not (.Var 1))))) = false := by
  decide

/-- C3 as amended: re-simplification is idempotent up to evaluation rather
than up to structural equality: for every expression e and context d, over
any variable type satisfying the Eval contract, simplify(simplify(e)) and
simplify(e) evaluate to the same boolean. -/
theorem simplify_twice_eval_equiv (veq : V → V → Bool) (ev : V → D → Bool) (d : D)
    (hv : ∀ v w, veq v w = true → ev v d = ev w d) (e : Expr V) :
    eval ev (simplify veq (simplify veq e)) d = eval ev (simplify veq e) d :=
  eval_simplify veq ev d hv (simplify veq e)

/-- C3 witness: the amended theorem applied at the counterexample
expression and the test context. -/
theorem simplify_twice_eval_equiv_witness :
    eval evalContains
      (simplify natBeq (simplify natBeq
        (.Not (.And (.Not (.Var 1)) (.Not (.Var 1)))))) ctx0 =
    eval evalContains
      (simplify natBeq (.Not (.And (.Not (.Var 1)) (.Not (.Var 1))))) ctx0 :=
  simplify_twice_eval_equiv natBeq evalContains ctx0 (natRespects ctx0)
    (.Not (.And (.Not (.Var 1)) (.Not (.Var 1))))

/-- C4 counterexample: on And(Or(Var 1, Var 2), Or(Var 3, Var 4)), where
both children are Or nodes, distribute_and does not return
Or(And(b, q), And(b, r)) with the first operand a = Or(q, r) split, so the
first operand does not win the tie-break. -/
theorem distribute_tiebreak_cex :
    exprEq natBeq
      (distribute_and (.And (.Or (.Var 1) (.Var 2)) (.Or (.Var 3) (.Var 4))))
      (.Or (.And (.Or (.Var 3) (.Var 4)) (.Var 1))
           (.And (.Or (.Var 3) (.Var 4)) (.Var 2))) = false := by
  decide

/-- C4 as amended: the second operand is checked first.  When both children
of And(a, b) are Or nodes, b = Or(q, r) is the node split and a is the
distributed term p, giving Or(And(a, q), And(a, r)); dually, distribute_or
on Or(a, b) with both children And splits b. -/
theorem distribute_tiebreak_second_operand (a1 b1 a2 b2 : Expr V) :
    distribute_and (.And (.Or a1 b1) (.Or a2 b2)) =
      .Or (.And (.Or a1 b1) a2) (.And (.Or a1 b1) b2) ∧
    distribute_or (.Or (.And a1 b1) (.And a2 b2)) =
      .And (.Or (.And a1 b1) a2) (.Or (.And a1 b1) b2) :=
  ⟨rfl, rfl⟩

/-- C5: CNF extraction of And(Or(And(1,2),And(3,4)), And(Or(5,6),Or(7,8)))
over integer literals yields exactly the six clauses Or(7,8), Or(5,6),
Or(4,2), Or(4,1), Or(3,2), Or(3,1), as an unordered clause collection. -/
theorem three_level_cnf_clauses :
    (cnfFromClauses natBeq exprThreeLevel).Perm cnfExpectedClauses := by
  have hb := cnfLoopFuel_complete (V := Nat) insertClause 70
    [simplify natBeq exprThreeLevel] [] (by decide)
  have hc : cnfLoopFuel insertClause 70 [simplify natBeq exprThreeLevel] [] =
      some cnfExpectedClauses := by decide
  rw [hb] at hc
  injection hc with hc
  unfold cnfFromClauses
  rw [hc]

/-- C6: the work-stack extraction loop terminates for every input
expression and every insertion policy: some finite iteration bound makes the
literal while-let loop return, and it returns the extraction result, so
Cnf::from and Dnf::from are total. -/
theorem extraction_loops_terminate
    (ins : Expr V → List (Expr V) → List (Expr V)) (veq : V → V → Bool)
    (e : Expr V) :
    (∃ n, cnfLoopFuel ins n [simplify veq e] [] =
      some (cnfLoop ins [simplify veq e] [])) ∧
    (∃ n, dnfLoopFuel ins n [simplify veq e] [] =
      some (dnfLoop ins [simplify veq e] [])) :=
  ⟨⟨muQC [simplify veq e] + 1,
      cnfLoopFuel_complete ins _ _ _ (Nat.lt_succ_self _)⟩,
   ⟨muQD [simplify veq e] + 1,
      dnfLoopFuel_complete ins _ _ _ (Nat.lt_succ_self _)⟩⟩

/-- C7: the deduplicating and order-preserving extractors agree up to
storage policy: a clause is in CnfHashSet::from(e) exactly when it is among
the elements of CnfVec::from(e), and likewise for DnfHashSet and DnfVec. -/
theorem hashset_vec_extract_agree [DecidableEq V] (veq : V → V → Bool)
    (e : Expr V) (c : Expr V) :
    (c ∈ cnfFromClauses veq e ↔ c ∈ cnfVecFromClauses veq e) ∧
    (c ∈ dnfFromClauses veq e ↔ c ∈ dnfVecFromClauses veq e) := by
  constructor
  · have h1 := cnfLoopFuel_complete (V := V) insertClause
      (muQC [simplify veq e] + 1) [simplify veq e] [] (Nat.lt_succ_self _)
    have h2 := cnfLoopFuel_complete (V := V) pushClause
      (muQC [simplify veq e] + 1) [simplify veq e] [] (Nat.lt_succ_self _)
    exact cnfLoopFuel_mem insertClause pushClause insertClause_mem pushClause_mem
      _ _ _ _ _ _ h1 h2 (fun x => Iff.rfl) c
  · have h1 := dnfLoopFuel_complete (V := V) insertClause
      (muQD [simplify veq e] + 1) [simplify veq e] [] (Nat.lt_succ_self _)
    have h2 := dnfLoopFuel_complete (V := V) pushClause
      (muQD [simplify veq e] + 1) [simplify veq e] [] (Nat.lt_succ_self _)
    exact dnfLoopFuel_mem insertClause pushClause insertClause_mem pushClause_mem
      _ _ _ _ _ _ h1 h2 (fun x => Iff.rfl) c

/-- C8: for every context, a CNF evaluates true exactly when every clause
in it does, so the empty CNF evaluates true; a DNF evaluates true exactly
when at least one clause does, so the empty DNF evaluates false. -/
theorem cnf_dnf_vacuous_semantics (ev : V → D → Bool) (d : D)
    (cl : List (Expr V)) :
    (evalCnf ev cl d = true ↔ ∀ c ∈ cl, eval ev c d = true) ∧
    evalCnf ev ([] : List (Expr V)) d = true ∧
    (evalDnf ev cl d = true ↔ ∃ c ∈ cl, eval ev c d = true) ∧
    evalDnf ev ([] : List (Expr V)) d = false := by
  refine ⟨?_, rfl, ?_, rfl⟩
  · simp [evalCnf, List.all_eq_true]
  · simp [evalDnf, List.any_eq_true]

/-- C9: eq_repr as implemented is not reflexive: on e = Or(Var 1, Var 2) it
returns false for e compared with itself, because the Or and And arms
compare each expression's own two children rather than the corresponding
children across the two expressions, contradicting the function's own
documentation. -/
theorem eq_repr_irreflexive_bug :
    eq_repr natBeq (.Or (.Var 1) (.Var 2)) (.Or (.Var 1) (.Var 2)) = false := by
  simp [eq_repr, natBeq]

/-- C10: the normal form extracted from a single expression is never empty:
Cnf::from(e) and Dnf::from(e) always hold at least one clause, so is_empty
on the result returns false. -/
theorem extract_nonempty [DecidableEq V] (veq : V → V → Bool) (e : Expr V) :
    (cnfFromClauses veq e).isEmpty = false ∧
    (dnfFromClauses veq e).isEmpty = false := by
  constructor
  · have hb := cnfLoopFuel_complete (V := V) insertClause
      (muQC [simplify veq e] + 1) [simplify veq e] [] (Nat.lt_succ_self _)
    have hne := cnfLoopFuel_ne_nil insertClause insertClause_ne_nil
      _ _ _ _ hb (Or.inr (by simp))
    unfold cnfFromClauses
    cases hr : cnfLoop insertClause [simplify veq e] [] with
    | nil => exact absurd hr hne
    | cons a l => rfl
  · have hb := dnfLoopFuel_complete (V := V) insertClause
      (muQD [simplify veq e] + 1) [simplify veq e] [] (Nat.lt_succ_self _)
    have hne := dnfLoopFuel_ne_nil insertClause insertClause_ne_nil
      _ _ _ _ hb (Or.inr (by simp))
    unfold dnfFromClauses
    cases hr : dnfLoop insertClause [simplify veq e] [] with
    | nil => exact absurd hr hne
    | cons a l => rfl

end SimplePredicates
